import Mathlib

/-!
Shallow embedding of the `weekly` git scanner core
(`src/weekly/git_scanner.py`): repository discovery, per-repository
scan unit, orchestrator, and artifact writer, together with proofs of
the specified properties.

Conventions of the embedding:
* filesystem paths are lists of path segments (`List String`);
* timestamps carry a calendar day (as an integer day number) and a
  second-of-day, mirroring the date-vs-time distinction the code makes;
* shell-outs to git are an oracle (`GitOracle`) mapping a path to the
  answers the subprocess calls would produce (`None` models a failing
  or unparsable command, exactly the cases `_extract_metadata` absorbs);
* Python exceptions are `Except String`; a `try`-block that assigns
  `result.error` becomes a `match` on the `Except` value.
-/

/-- A timestamp: `day` is the calendar date (day number, so that
`d.date() >= s.date()` in the code becomes `s.day ≤ d.day`), `sec` the
time of day.  `datetime.date()` comparison in the code only looks at
`day`. -/
structure DateTime where
  day : Int
  sec : Nat
deriving DecidableEq, Repr

/-- A directory tree.  A directory is a git repository marker holder
iff one of its children is named `".git"` (the `".git" in dirs` test
of `find_git_repos`). -/
inductive DirTree where
  | node (name : String) (children : List DirTree)

/-- Directory name. -/
def DirTree.name : DirTree → String
  | .node n _ => n

/-- Child directories. -/
def DirTree.children : DirTree → List DirTree
  | .node _ cs => cs

/-- The `".git" in dirs` test of `find_git_repos` (line 215). -/
def DirTree.hasMarker (t : DirTree) : Bool :=
  t.children.any (fun c => c.name == ".git")

/-- Structural induction for rose trees of directories. -/
theorem DirTree.inductionOn {motive : DirTree → Prop}
    (h : ∀ n cs, (∀ c ∈ cs, motive c) → motive (.node n cs)) :
    ∀ t, motive t
  | .node n cs => h n cs (fun c hc => DirTree.inductionOn h c)
decreasing_by
  have := List.sizeOf_lt_of_mem hc
  simp only [DirTree.node.sizeOf_spec]
  omega

/-- The `os.walk` loop of `find_git_repos` (lines 213-218): visit
directories top-down; whenever `".git"` is among the children, record
the current directory (as its segment path relative to the scan root);
when additionally `recursive` is false, prune the walk there
(`dirs[:] = []`).  Returns the recorded relative paths in visit
order. -/
def walkAux (recursive : Bool) (base : List String) : DirTree → List (List String)
  | .node _ cs =>
    let mark := cs.any (fun c => c.name == ".git")
    (if mark then [base] else []) ++
    (if mark && !recursive then []
     else (cs.attach.map (fun c => walkAux recursive (base ++ [c.1.name]) c.1)).flatten)
decreasing_by
  have := List.sizeOf_lt_of_mem c.2
  simp only [DirTree.node.sizeOf_spec]
  omega

/-- Unfolding lemma for `walkAux` phrased with a plain `flatMap`. -/
theorem walkAux_node (recursive : Bool) (base : List String) (n : String)
    (cs : List DirTree) :
    walkAux recursive base (.node n cs) =
      (if cs.any (fun c => c.name == ".git") then [base] else []) ++
      (if cs.any (fun c => c.name == ".git") && !recursive then []
       else cs.flatMap (fun c => walkAux recursive (base ++ [c.name]) c)) := by
  rw [walkAux]
  simp [List.flatMap_def, List.attach_map_coe]

/-- Relative marker paths discovered under the root tree. -/
def discovered (recursive : Bool) (t : DirTree) : List (List String) :=
  walkAux recursive [] t

/-- Organization / name derivation of `find_git_repos` (lines 224-236):
the root itself (empty relative path) uses the root directory name and
no organization; depth one uses the single segment as name and no
organization; otherwise the first segment is the organization and the
last segment the name. -/
def deriveOrgName (rootName : String) (parts : List String) : String × String :=
  match parts with
  | [] => ("", rootName)
  | [a] => ("", a)
  | a :: b :: rest => (a, List.getLastD (b :: rest) a)

/-- Answers that the git shell-outs of `_extract_metadata` would give
for a path, plus the filesystem facts the specification talks about.
A `none` models a failing subprocess or unparsable output.  The
`pathExists` / `hasMarkerAt` fields record plain filesystem truth;
note that `GitRepo.__post_init__` never consults them. -/
structure GitOracle where
  pathExists : List String → Bool
  hasMarkerAt : List String → Bool
  branchOf : List String → Option String
  lastCommit : List String → Option DateTime
  remoteOf : List String → Option String

/-- The `GitRepo` dataclass (fields of lines 42-48 after
`__post_init__` ran). -/
structure GitRepoM where
  path : List String
  name : String
  org : String
  last_commit_date : Option DateTime
  has_changes : Bool
  branch : String
  remote_url : String
deriving DecidableEq, Repr

/-- Construction of a `GitRepo`/`__post_init__` (lines 50-76) followed
by `_extract_metadata` (lines 78-105): fail when the path or the name
is falsy; otherwise fill the metadata fields from the git oracle,
falling back to the dataclass defaults (`"main"`, `None`, `""`) when a
command fails — `_extract_metadata` swallows every exception. -/
def GitRepo.make (o : GitOracle) (path : List String) (name org : String) :
    Except String GitRepoM :=
  if path.isEmpty then .error "path is required"
  else if name = "" then .error "name is required"
  else .ok
    { path := path
      name := name
      org := org
      last_commit_date := o.lastCommit path
      has_changes := false
      branch := (o.branchOf path).getD "main"
      remote_url := (o.remoteOf path).getD "" }

/-- Predicate `GitRepo.has_recent_changes` (lines 107-112): false when
there is no last commit date, otherwise a date-only comparison. -/
def hasRecentChanges (r : GitRepoM) (since : DateTime) : Bool :=
  match r.last_commit_date with
  | none => false
  | some d => decide (since.day ≤ d.day)

/-- Descriptor construction for one discovered marker path (lines
221-238): derive organization and name from the relative path, then
build the `GitRepo` at the absolute path. -/
def mkFromParts (o : GitOracle) (rootName : String) (rootParts : List String)
    (parts : List String) : Except String GitRepoM :=
  let pr := deriveOrgName rootName parts
  GitRepo.make o (rootParts ++ parts) pr.2 pr.1

/-- Embedding of `GitScanner.find_git_repos` (lines 202-250): walk the tree, build a
descriptor per marker directory (a failing construction is logged and
skipped), and keep only repositories passing the since filter of line
241 — `self.since` is always a truthy `datetime` there. -/
def findGitRepos (o : GitOracle) (rootName : String) (rootParts : List String)
    (recursive : Bool) (tree : DirTree) (since : DateTime) : List GitRepoM :=
  (discovered recursive tree).filterMap fun parts =>
    match mkFromParts o rootName rootParts parts with
    | .error _ => none
    | .ok repo => if hasRecentChanges repo since then some repo else none

/-- The `since` default of `GitScanner.__init__` (line 197):
`since or (datetime.now() - timedelta(days=7))`; a `datetime` object is
always truthy, so only `None` triggers the default. -/
def initSince (since : Option DateTime) (now : DateTime) : DateTime :=
  since.getD { day := now.day - 7, sec := now.sec }

/-- Result of one checker (`core.report.CheckResult` as the scan unit
stores it): only the status matters to the scanner logic. -/
structure CheckResultM where
  status : String
  title : String
deriving DecidableEq, Repr

/-- The argument the scan unit passes to every checker
(`Project(repo.path)`, line 314). -/
structure ProjectM where
  path : List String
deriving DecidableEq, Repr

/-- One registered checker: a name and a `check` call that may return
a result, return `None` (no opinion), or raise. -/
structure Checker where
  name : String
  check : ProjectM → Except String (Option CheckResultM)

/-- The checker loop of `scan_repo` (lines 327-335): invoke every
checker in order; a raising checker is caught and contributes no
entry, a returning checker contributes its (possibly `None`) result
under its name. -/
def runCheckers (cs : List Checker) (p : ProjectM) :
    List (String × Option CheckResultM) :=
  cs.filterMap fun c =>
    match c.check p with
    | .ok r => some (c.name, r)
    | .error _ => none

/-- The changelog payload (`ChangeSummary`); the scanner only threads
it through, so one representative field suffices. -/
structure ChangeSummaryM where
  commits : Nat
deriving DecidableEq, Repr

/-- The `ScanResult` dataclass (lines 128-138), restricted to the
fields the verified logic reads. -/
structure ScanResultM where
  repo : GitRepoM
  results : List (String × Option CheckResultM)
  error : Option String
  changeSummary : Option ChangeSummaryM
deriving Repr

/-- The collaborators `scan_repo` calls, each of which may raise: the
commit analysis `analyzer.analyze_changes` whose value is assigned to
`result.change_summary` (lines 262-263); the changelog persistence
that follows the assignment (`mkdir`, git-cliff or the fallback write,
excerpt read — lines 266-300); the per-repository report rendering
(`_generate_repo_report`, line 338); plus the checker registry (lines
316-325).  The split between analysis and persistence matters: a
raise in the former leaves `change_summary` unset, a raise in the
latter happens after it was assigned. -/
structure ScanEnv where
  analyzeChanges : List String → Except String ChangeSummaryM
  writeChangelog : List String → ChangeSummaryM → Except String Unit
  checkers : List Checker
  render : GitRepoM → List (String × Option CheckResultM) → Except String Unit

/-- Embedding of `GitScanner.scan_repo` (lines 252-344).  Everything sits in one
`try` block: the changelog step runs first (`self.since` is always
truthy), so when any part of it raises, control jumps to the handler
at line 340 — `error` is set and the checkers never run; the
`change_summary` field keeps whatever line 263 assigned before the
raise (nothing when the analysis itself raised, the summary when the
later persistence raised).  When the whole step succeeds, the checkers
run (each individually fault-isolated), and a raising report rendering
is likewise caught into `error` after the checker results were already
recorded. -/
def scanRepo (env : ScanEnv) (repo : GitRepoM) : ScanResultM :=
  match env.analyzeChanges repo.path with
  | .error e =>
      { repo := repo, results := [], error := some e, changeSummary := none }
  | .ok summary =>
      match env.writeChangelog repo.path summary with
      | .error e =>
          { repo := repo, results := [], error := some e
            changeSummary := some summary }
      | .ok _ =>
          let results := runCheckers env.checkers { path := repo.path }
          match env.render repo results with
          | .error e =>
              { repo := repo, results := results, error := some e
                changeSummary := some summary }
          | .ok _ =>
              { repo := repo, results := results, error := none
                changeSummary := some summary }

/-- One row of the aggregate summary (`repos_data` entry of
`_generate_summary_report`, lines 611-626), restricted to the fields
the sort key and error badge use. -/
structure SummaryRow where
  org : String
  name : String
  hasErrors : Bool
deriving DecidableEq, Repr

/-- The `has_errors` aggregation of `_generate_summary_report` (lines
595-606): a unit error, or any recorded check whose status is not
`"success"` (a `None` entry is skipped). -/
def hasErrorsOf (r : ScanResultM) : Bool :=
  r.error.isSome ||
    r.results.any fun kv =>
      match kv.2 with
      | none => false
      | some c => !(c.status.toLower == "success")

/-- The summary rows, one per scan result, in result order (lines
593-626). -/
def summaryRows (results : List ScanResultM) : List SummaryRow :=
  results.map fun r =>
    { org := r.repo.org, name := r.repo.name, hasErrors := hasErrorsOf r }

/-- Code-point lexicographic strict order on character lists: the
comparison Python uses on `str`. -/
def lexLt : List Char → List Char → Bool
  | _, [] => false
  | [], _ :: _ => true
  | a :: as, b :: bs =>
      if a = b then lexLt as bs else decide (a.val.toNat < b.val.toNat)

/-- Strict string comparison (Python `<` on `str`). -/
def strLtB (a b : String) : Bool :=
  lexLt a.data b.data

/-- Non-strict string comparison (Python `<=` on `str`). -/
def strLeB (a b : String) : Bool :=
  strLtB a b || a == b

/-- Python `str.lower`, character by character. -/
def lowerStr (s : String) : String :=
  ⟨s.data.map Char.toLower⟩

/-- The sort key order of line 630: the pair of lowercased
organization and name, compared lexicographically (Python tuple
comparison of `(org.lower(), name.lower())`). -/
def summaryLe (a b : SummaryRow) : Prop :=
  strLtB (lowerStr a.org) (lowerStr b.org) = true ∨
    (lowerStr a.org = lowerStr b.org ∧
      strLeB (lowerStr a.name) (lowerStr b.name) = true)

instance : DecidableRel summaryLe := fun a b => by
  unfold summaryLe; infer_instance

/-- Transitivity of the lexicographic order. -/
theorem lexLt_trans : ∀ {a b c : List Char},
    lexLt a b = true → lexLt b c = true → lexLt a c = true
  | _, [], _, h1, _ => by simp [lexLt] at h1
  | _, _ :: _, [], _, h2 => by simp [lexLt] at h2
  | [], _ :: _, _ :: _, _, _ => by simp [lexLt]
  | a :: as, b :: bs, c :: cs, h1, h2 => by
      unfold lexLt at h1 h2 ⊢
      by_cases hab : a = b <;> by_cases hbc : b = c
      · subst hab; subst hbc
        rw [if_pos rfl] at h1 h2 ⊢
        exact lexLt_trans h1 h2
      · subst hab
        rw [if_pos rfl] at h1
        rw [if_neg hbc] at h2 ⊢
        exact h2
      · subst hbc
        rw [if_neg hab] at h1 ⊢
        exact h1
      · rw [if_neg hab] at h1
        rw [if_neg hbc] at h2
        have h1n := of_decide_eq_true h1
        have h2n := of_decide_eq_true h2
        have hac : a ≠ c := by
          intro he
          subst he
          omega
        rw [if_neg hac]
        exact decide_eq_true (by omega)

/-- Two lists neither of which precedes the other are equal. -/
theorem lexLt_eq_of_not : ∀ {a b : List Char},
    lexLt a b = false → lexLt b a = false → a = b
  | [], [], _, _ => rfl
  | [], _ :: _, h1, _ => by cases h1
  | _ :: _, [], _, h2 => by cases h2
  | a :: as, b :: bs, h1, h2 => by
      unfold lexLt at h1 h2
      by_cases hab : a = b
      · subst hab
        rw [if_pos rfl] at h1 h2
        rw [lexLt_eq_of_not h1 h2]
      · rw [if_neg hab] at h1
        rw [if_neg (fun he => hab he.symm)] at h2
        have h1n := of_decide_eq_false h1
        have h2n := of_decide_eq_false h2
        have : a.val.toNat = b.val.toNat := by omega
        exact absurd (Char.ext (UInt32.ext this)) hab

/-- String-level transitivity. -/
theorem strLtB_trans {x y z : String} (h1 : strLtB x y = true)
    (h2 : strLtB y z = true) : strLtB x z = true :=
  lexLt_trans h1 h2

/-- String-level connexity. -/
theorem strLtB_eq_of_not {x y : String} (h1 : strLtB x y = false)
    (h2 : strLtB y x = false) : x = y := by
  cases x with
  | mk dx =>
      cases y with
      | mk dy =>
          have h3 : dx = dy := lexLt_eq_of_not h1 h2
          rw [h3]

/-- Non-strict string comparison is transitive. -/
theorem strLeB_trans {x y z : String} (h1 : strLeB x y = true)
    (h2 : strLeB y z = true) : strLeB x z = true := by
  unfold strLeB at h1 h2 ⊢
  rcases Bool.or_eq_true_iff.mp h1 with ha | ha <;>
    rcases Bool.or_eq_true_iff.mp h2 with hb | hb
  · exact Bool.or_eq_true_iff.mpr (Or.inl (strLtB_trans ha hb))
  · exact Bool.or_eq_true_iff.mpr (Or.inl (eq_of_beq hb ▸ ha))
  · exact Bool.or_eq_true_iff.mpr (Or.inl (eq_of_beq ha ▸ hb))
  · exact Bool.or_eq_true_iff.mpr (Or.inr (by rw [eq_of_beq ha]; exact hb))

instance : IsTotal SummaryRow summaryLe := by
  constructor
  intro a b
  by_cases h1 : strLtB (lowerStr a.org) (lowerStr b.org) = true
  · exact Or.inl (Or.inl h1)
  by_cases h2 : strLtB (lowerStr b.org) (lowerStr a.org) = true
  · exact Or.inr (Or.inl h2)
  have horg : lowerStr a.org = lowerStr b.org :=
    strLtB_eq_of_not (Bool.not_eq_true _ ▸ h1) (Bool.not_eq_true _ ▸ h2)
  by_cases h3 : strLtB (lowerStr a.name) (lowerStr b.name) = true
  · exact Or.inl (Or.inr ⟨horg, Bool.or_eq_true_iff.mpr (Or.inl h3)⟩)
  by_cases h4 : strLtB (lowerStr b.name) (lowerStr a.name) = true
  · exact Or.inr (Or.inr ⟨horg.symm, Bool.or_eq_true_iff.mpr (Or.inl h4)⟩)
  have hname : lowerStr a.name = lowerStr b.name :=
    strLtB_eq_of_not (Bool.not_eq_true _ ▸ h3) (Bool.not_eq_true _ ▸ h4)
  exact Or.inl (Or.inr ⟨horg,
    Bool.or_eq_true_iff.mpr (Or.inr (hname ▸ beq_self_eq_true _))⟩)

instance : IsTrans SummaryRow summaryLe := by
  constructor
  intro a b c hab hbc
  rcases hab with h1 | ⟨h1, h1n⟩ <;> rcases hbc with h2 | ⟨h2, h2n⟩
  · exact Or.inl (strLtB_trans h1 h2)
  · exact Or.inl (h2 ▸ h1)
  · exact Or.inl (h1 ▸ h2)
  · exact Or.inr ⟨h1.trans h2, strLeB_trans h1n h2n⟩

/-- Embedding of `GitScanner._generate_summary_report` (lines 578-641): `None`
(and no write) when the result list is empty, otherwise the rows
sorted stably by the case-insensitive `(org, name)` key — Python
`list.sort` is a stable sort, embedded as insertion sort. -/
def generateSummaryReport (results : List ScanResultM) :
    Option (List SummaryRow) :=
  if results.isEmpty then none
  else some (List.insertionSort summaryLe (summaryRows results))

/-- Artifacts `scan_all` creates outside the scan units: the output
directory (line 359) and the summary page (line 400 / 633). -/
inductive Artifact where
  | outputDir
  | summary (rows : List SummaryRow)
deriving DecidableEq, Repr

/-- Embedding of `GitScanner.scan_all` (lines 346-402): discover; on zero
repositories return an empty list at once, before the output directory
is created and before any report is written; otherwise create the
output directory, scan every repository (each unit catches its own
failures, so every submitted unit yields a result), and render the
summary exactly once. -/
def scanAll (env : ScanEnv) (o : GitOracle) (rootName : String)
    (rootParts : List String) (recursive : Bool) (tree : DirTree)
    (since : DateTime) : List ScanResultM × List Artifact :=
  let repos := findGitRepos o rootName rootParts recursive tree since
  if repos.isEmpty then ([], [])
  else
    let results := repos.map (scanRepo env)
    match generateSummaryReport results with
    | none => (results, [.outputDir])
    | some rows => (results, [.outputDir, .summary rows])

/-- State of one repository output directory: regular files and
symlinks (name, target). -/
structure RepoFS where
  files : List String
  links : List (String × String)
deriving DecidableEq, Repr

/-- Regular-file existence. -/
def RepoFS.fileExists (fs : RepoFS) (n : String) : Bool :=
  decide (n ∈ fs.files)

/-- Presence of a symlink (dangling ones included) at the name:
`Path.is_symlink`. -/
def RepoFS.hasLink (fs : RepoFS) (n : String) : Bool :=
  decide (∃ e ∈ fs.links, e.1 = n)

/-- The symlink entries sitting at a name. -/
def RepoFS.linksNamed (fs : RepoFS) (n : String) : List (String × String) :=
  fs.links.filter (fun l => decide (l.1 = n))

/-- Embedding of `Path.unlink`: removes whatever sits at the name. -/
def RepoFS.unlink (fs : RepoFS) (n : String) : RepoFS :=
  { files := fs.files.filter (fun f => decide (f ≠ n))
    links := fs.links.filter (fun l => decide (l.1 ≠ n)) }

/-- Write (or overwrite) a regular file. -/
def RepoFS.writeFile (fs : RepoFS) (n : String) : RepoFS :=
  if n ∈ fs.files then fs else { fs with files := n :: fs.files }

/-- One iteration of the `latest` pointer loop of
`_generate_repo_report` (lines 539-574): for a suffix, remove the
existing `latest{suffix}` if it exists or is a symlink (dangling
included), then, when the freshly written target exists, link
`latest{suffix}` to it. -/
def updateLatest (t suffix : String) (fs : RepoFS) : RepoFS :=
  let latest := "latest" ++ suffix
  let target := t ++ suffix
  let fs1 :=
    if fs.fileExists latest || fs.hasLink latest then fs.unlink latest
    else fs
  if fs1.fileExists target then
    { fs1 with links := (latest, target) :: fs1.links }
  else fs1

/-- The artifact-writing tail of `_generate_repo_report` (lines
531-576) for one run with timestamp `t`, as it would execute were it
reached: `generate_html_report` writes the timestamped `.html` file
and with it the `.md` and `.llm.md` variants (git_report.py lines
416-428), then the pointer loop updates `latest.html`, `latest.md`,
`latest.llm.md` in that order.  In the current source this tail is
dead code — see `generateRepoReport`. -/
def writeRepoReport (t : String) (fs : RepoFS) : RepoFS :=
  let fs1 := ((fs.writeFile (t ++ ".md")).writeFile (t ++ ".llm.md")).writeFile
    (t ++ ".html")
  updateLatest t ".llm.md" (updateLatest t ".md" (updateLatest t ".html" fs1))

/-- Embedding of the `RepoInfo(...)` construction at lines 449-461:
the call passes the keyword arguments `scan_command` and `scan_since`,
but the `RepoInfo` dataclass (git_report.py lines 45-53) declares only
`name`, `org`, `path`, `branch`, `remote_url`, `last_commit_date` and
`has_errors`, so Python raises `TypeError` on every call.  (The
`ReportCheckResult(checker_name=..., title=..., status=..., ...)`
conversions at lines 464-528 would likewise not match
`git_report.CheckResult.__init__(name, description, is_ok, message,
...)`, but the `RepoInfo` call raises first.) -/
def mkRepoInfo : Except String Unit :=
  .error "TypeError: unexpected keyword argument scan_command"

/-- Embedding of `_generate_repo_report` (lines 404-576) as it
actually executes: the output-directory `mkdir` of line 416 touches no
report file or pointer modeled in `RepoFS`, and then the `RepoInfo`
construction raises before `generate_html_report` (line 531) or the
pointer loop (lines 538-576) can run, so the state is returned
unchanged together with the exception (which `scan_repo` catches into
`ScanResult.error` at line 340). -/
def generateRepoReport (t : String) (fs : RepoFS) : RepoFS × Except String Unit :=
  match mkRepoInfo with
  | .error e => (fs, .error e)
  | .ok _ => (writeRepoReport t fs, .ok ())

/-! Concrete objects used by witnesses and counterexamples. -/

/-- An oracle on which every git command fails and no path exists. -/
def noRepoOracle : GitOracle :=
  { pathExists := fun _ => false
    hasMarkerAt := fun _ => false
    branchOf := fun _ => none
    lastCommit := fun _ => none
    remoteOf := fun _ => none }

/-- An oracle whose repositories all have a last commit on day 100. -/
def goodOracle : GitOracle :=
  { pathExists := fun _ => true
    hasMarkerAt := fun _ => true
    branchOf := fun _ => some "main"
    lastCommit := fun _ => some ⟨100, 0⟩
    remoteOf := fun _ => none }

/-- A root directory with no repository anywhere. -/
def emptyTree : DirTree :=
  .node "root" [.node "sub" []]

/-- A root with one repository `A` that itself contains a nested
repository `A/B`. -/
def nestedTree : DirTree :=
  .node "root" [.node "A" [.node ".git" [], .node "B" [.node ".git" []]]]

/-- A root with one repository one level below root. -/
def singleRepoTree : DirTree :=
  .node "root" [.node "repo1" [.node ".git" []]]

/-- A trivial scan environment: failing commit analysis, no
checkers. -/
def envTrivial : ScanEnv :=
  { analyzeChanges := fun _ => .error "git-cliff failed"
    writeChangelog := fun _ _ => .ok ()
    checkers := []
    render := fun _ _ => .ok () }

/-! Helper lemmas. -/

/-- Membership in `findGitRepos` unfolded: a repository is returned
exactly when some discovered marker path constructs it and it passes
the since filter. -/
theorem mem_findGitRepos {o : GitOracle} {rootName : String}
    {rootParts : List String} {recursive : Bool} {tree : DirTree}
    {since : DateTime} {r : GitRepoM} :
    r ∈ findGitRepos o rootName rootParts recursive tree since ↔
      ∃ parts ∈ discovered recursive tree,
        mkFromParts o rootName rootParts parts = .ok r ∧
        hasRecentChanges r since = true := by
  simp only [findGitRepos, List.mem_filterMap]
  constructor
  · rintro ⟨parts, hp, hf⟩
    refine ⟨parts, hp, ?_⟩
    rcases hmk : mkFromParts o rootName rootParts parts with e | repo <;>
      rw [hmk] at hf
    · exact absurd hf (by simp)
    · by_cases hrc : hasRecentChanges repo since = true
      · simp only [hrc, if_true] at hf
        injection hf with hfe
        subst hfe
        exact ⟨hmk ▸ rfl, hrc⟩
      · simp only [hrc, if_false, Bool.false_eq_true] at hf
        exact absurd hf (by simp [hrc])
  · rintro ⟨parts, hp, hmk, hrc⟩
    exact ⟨parts, hp, by rw [hmk]; simp [hrc]⟩

/-- A checker that returns a result with the given status. -/
def chkOk (n st : String) : Checker :=
  { name := n, check := fun _ => .ok (some { status := st, title := n }) }

/-- A checker that always raises. -/
def chkBad (n : String) : Checker :=
  { name := n, check := fun _ => .error "boom" }

/-- A concrete repository descriptor. -/
def repo0 : GitRepoM :=
  { path := ["root", "repo1"], name := "repo1", org := ""
    last_commit_date := some ⟨100, 0⟩, has_changes := false
    branch := "main", remote_url := "" }

/-- Environment whose middle checker always raises. -/
def envC1 : ScanEnv :=
  { analyzeChanges := fun _ => .ok ⟨3⟩
    writeChangelog := fun _ _ => .ok ()
    checkers := [chkOk "style" "success", chkBad "code_quality",
      chkOk "dependencies" "warning"]
    render := fun _ _ => .ok () }

/-- Environment whose commit analysis (line 263) always raises. -/
def envC2bad : ScanEnv :=
  { analyzeChanges := fun _ => .error "changelog boom"
    writeChangelog := fun _ _ => .ok ()
    checkers := [chkOk "style" "success"]
    render := fun _ _ => .ok () }

/-- Environment whose commit analysis succeeds but whose later
changelog persistence (lines 266-300) raises. -/
def envC2late : ScanEnv :=
  { analyzeChanges := fun _ => .ok ⟨3⟩
    writeChangelog := fun _ _ => .error "changelog write boom"
    checkers := [chkOk "style" "success"]
    render := fun _ _ => .ok () }

/-- Splitting the checker loop over an append. -/
theorem runCheckers_append (l1 l2 : List Checker) (p : ProjectM) :
    runCheckers (l1 ++ l2) p = runCheckers l1 p ++ runCheckers l2 p := by
  unfold runCheckers
  exact List.filterMap_append _ _ _

/-- A raising checker contributes nothing and stops nothing. -/
theorem runCheckers_cons_error {c : Checker} {p : ProjectM} {e : String}
    (h : c.check p = .error e) (l : List Checker) :
    runCheckers (c :: l) p = runCheckers l p := by
  unfold runCheckers
  rw [List.filterMap_cons, h]

/-- Every key in the result map is the name of some checker. -/
theorem runCheckers_keys {cs : List Checker} {p : ProjectM} :
    ∀ kv ∈ runCheckers cs p, kv.1 ∈ cs.map Checker.name := by
  intro kv hkv
  rcases List.mem_filterMap.mp hkv with ⟨c, hc, hok⟩
  rcases h : c.check p with e | r <;> rw [h] at hok
  · cases hok
  · injection hok with he
    subst he
    exact List.mem_map_of_mem Checker.name hc

/-- An association list with no binding for a key looks it up to
`none`. -/
theorem lookup_eq_none_of_not_mem {α : Type} {l : List (String × α)}
    {k : String} (h : ∀ kv ∈ l, kv.1 ≠ k) : l.lookup k = none := by
  induction l with
  | nil => rfl
  | cons kv l ih =>
      have hk : (k == kv.1) = false := by
        simp [h kv (List.mem_cons_self kv l)]
        exact fun he => (h kv (List.mem_cons_self kv l)) he.symm
      simp only [List.lookup, hk]
      exact ih fun kv2 h2 => h kv2 (List.mem_cons_of_mem kv h2)

/-- A succeeding checker in the loop has its (possibly `None`) result
recorded under its name. -/
theorem runCheckers_records {cs : List Checker} {p : ProjectM} {c : Checker}
    {r : Option CheckResultM} (hc : c ∈ cs) (hok : c.check p = .ok r) :
    (c.name, r) ∈ runCheckers cs p :=
  List.mem_filterMap.mpr ⟨c, hc, by rw [hok]⟩

/-! Claim C1. -/

/-- Claim C1: inside one scan unit, when a checker raises, its entry
is absent from the returned result map (given the registry names are
distinct), and every subsequent checker still runs — the result map is
exactly the one of the registry with the raising checker removed, and
every succeeding later checker has its result recorded. -/
theorem c1_checker_fault_isolation (env : ScanEnv) (repo : GitRepoM)
    (pre post : List Checker) (c : Checker) (e : String)
    (summary : ChangeSummaryM)
    (hck : env.checkers = pre ++ c :: post)
    (hcl : env.analyzeChanges repo.path = .ok summary)
    (hcl2 : env.writeChangelog repo.path summary = .ok ())
    (hfail : c.check { path := repo.path } = .error e) :
    (scanRepo env repo).results =
      runCheckers pre { path := repo.path } ++
        runCheckers post { path := repo.path } ∧
    (c.name ∉ (pre ++ post).map Checker.name →
      (scanRepo env repo).results.lookup c.name = none) ∧
    ∀ c2 ∈ post, ∀ r, c2.check { path := repo.path } = .ok r →
      (c2.name, r) ∈ (scanRepo env repo).results := by
  have hres : (scanRepo env repo).results =
      runCheckers env.checkers { path := repo.path } := by
    simp only [scanRepo, hcl, hcl2]
    split <;> rfl
  have hsplit : (scanRepo env repo).results =
      runCheckers pre { path := repo.path } ++
        runCheckers post { path := repo.path } := by
    rw [hres, hck, runCheckers_append, runCheckers_cons_error hfail]
  refine ⟨hsplit, ?_, ?_⟩
  · intro hfresh
    rw [hsplit]
    refine lookup_eq_none_of_not_mem ?_
    intro kv hkv he
    apply hfresh
    rw [← he]
    rcases List.mem_append.mp hkv with h2 | h2
    · exact List.map_append Checker.name pre post ▸
        List.mem_append.mpr (Or.inl (runCheckers_keys kv h2))
    · exact List.map_append Checker.name pre post ▸
        List.mem_append.mpr (Or.inr (runCheckers_keys kv h2))
  · intro c2 hc2 r hok
    rw [hsplit]
    exact List.mem_append.mpr (Or.inr (runCheckers_records hc2 hok))

/-- Witness for C1: with registry `[style, code_quality, dependencies]`
where `code_quality` raises, the scan unit records exactly the style
and dependencies results and no `code_quality` entry. -/
theorem c1_witness :
    (scanRepo envC1 repo0).results =
      [("style", some { status := "success", title := "style" }),
       ("dependencies", some { status := "warning", title := "dependencies" })] ∧
    (scanRepo envC1 repo0).results.lookup "code_quality" = none := by
  have h := c1_checker_fault_isolation envC1 repo0 [chkOk "style" "success"]
    [chkOk "dependencies" "warning"] (chkBad "code_quality") "boom" ⟨3⟩
    rfl rfl rfl rfl
  exact ⟨by rw [h.1]; rfl, h.2.1 (by simp [chkOk, chkBad])⟩

/-! Claim C2. -/

/-- Claim C2 is false on the code: the changelog step and the checker
loop live in the same `try` block of `scan_repo`, so a raising
changelog step jumps straight to the handler — `error` is set, but the
checkers never run and the result map stays empty, although the only
registered checker would have succeeded. -/
theorem c2_counterexample :
    (scanRepo envC2bad repo0).error = some "changelog boom" ∧
    (scanRepo envC2bad repo0).results = [] ∧
    runCheckers envC2bad.checkers { path := repo0.path } =
      [("style", some { status := "success", title := "style" })] ∧
    (scanRepo envC2bad repo0).results ≠
      runCheckers envC2bad.checkers { path := repo0.path } := by
  refine ⟨rfl, rfl, rfl, ?_⟩
  intro h
  rw [show (scanRepo envC2bad repo0).results = [] from rfl] at h
  exact List.cons_ne_nil _ _ h.symm

/-- Claim C2 (amended): when any part of the changelog step of a scan
unit raises, the unit does not abort — it returns a `ScanResult` with
`error` set — but the checkers do not run: the result map of that
`ScanResult` is empty.  The change-summary field holds whatever line
263 assigned before the raise: nothing when the commit analysis itself
raised, the computed summary when the later changelog persistence
raised. -/
theorem c2_changelog_failure_skips_checkers (env : ScanEnv) (repo : GitRepoM) :
    (∀ e, env.analyzeChanges repo.path = .error e →
      scanRepo env repo =
        { repo := repo, results := [], error := some e
          changeSummary := none }) ∧
    (∀ summary e, env.analyzeChanges repo.path = .ok summary →
      env.writeChangelog repo.path summary = .error e →
      scanRepo env repo =
        { repo := repo, results := [], error := some e
          changeSummary := some summary }) := by
  constructor
  · intro e h
    unfold scanRepo
    rw [h]
  · intro summary e h1 h2
    simp only [scanRepo, h1, h2]

/-- Witness for C2 (amended), at two concrete failing environments:
one whose analysis raises (no summary attached), one whose later
persistence raises (summary attached). -/
theorem c2_witness :
    scanRepo envC2bad repo0 =
      { repo := repo0, results := [], error := some "changelog boom"
        changeSummary := none } ∧
    scanRepo envC2late repo0 =
      { repo := repo0, results := [], error := some "changelog write boom"
        changeSummary := some ⟨3⟩ } :=
  ⟨(c2_changelog_failure_skips_checkers envC2bad repo0).1 "changelog boom" rfl,
   (c2_changelog_failure_skips_checkers envC2late repo0).2 ⟨3⟩
     "changelog write boom" rfl rfl⟩

/-! Claim C9. -/

/-- Claim C9 is false on the code: `GitRepo.__post_init__` never
consults the filesystem — a descriptor for a path that does not exist
and has no repository marker is constructed successfully, because
`_extract_metadata` absorbs every failing git command. -/
theorem c9_counterexample :
    noRepoOracle.pathExists ["nonexistent"] = false ∧
    noRepoOracle.hasMarkerAt ["nonexistent"] = false ∧
    (GitRepo.make noRepoOracle ["nonexistent"] "x" "").isOk = true := by
  decide

/-- Claim C9 (amended): construction of a `GitRepo` fails exactly when
the path or the name is falsy (empty); neither path existence nor the
presence of a repository marker is checked — a missing repository only
degrades the metadata fields to their defaults. -/
theorem c9_construction_checks_only_emptiness (o : GitOracle)
    (path : List String) (name org : String) :
    (GitRepo.make o path name org).isOk = true ↔ path ≠ [] ∧ name ≠ "" := by
  rcases path with _ | ⟨a, path⟩
  · simp [GitRepo.make, Except.isOk, Except.toBool]
  · by_cases h : name = "" <;>
      simp [GitRepo.make, h, Except.isOk, Except.toBool]

/-! Claim C4. -/

/-- Claim C4: a discovered repository is kept by the since filter iff
its last-commit timestamp exists and its calendar date is at least the
calendar date of `since` (date-only comparison); a last commit exactly
at midnight of the since date is included, one on the previous day is
excluded. -/
theorem c4_since_filter_boundary (o : GitOracle) (rootName : String)
    (rootParts : List String) (recursive : Bool) (tree : DirTree)
    (since : DateTime) :
    (∀ r ∈ findGitRepos o rootName rootParts recursive tree since,
        ∃ d, r.last_commit_date = some d ∧ since.day ≤ d.day) ∧
    (∀ parts ∈ discovered recursive tree, ∀ r,
        mkFromParts o rootName rootParts parts = .ok r →
        (∃ d, r.last_commit_date = some d ∧ since.day ≤ d.day) →
        r ∈ findGitRepos o rootName rootParts recursive tree since) ∧
    (∀ r : GitRepoM, hasRecentChanges r since = true ↔
        ∃ d, r.last_commit_date = some d ∧ since.day ≤ d.day) ∧
    (∀ r : GitRepoM, r.last_commit_date = some ⟨since.day, 0⟩ →
        hasRecentChanges r since = true) ∧
    (∀ r : GitRepoM, ∀ s : Nat,
        r.last_commit_date = some ⟨since.day - 1, s⟩ →
        hasRecentChanges r since = false) := by
  have hchar : ∀ r : GitRepoM, hasRecentChanges r since = true ↔
      ∃ d, r.last_commit_date = some d ∧ since.day ≤ d.day := by
    intro r
    unfold hasRecentChanges
    rcases h : r.last_commit_date with _ | d <;> simp [h]
  refine ⟨?_, ?_, hchar, ?_, ?_⟩
  · intro r hr
    rcases mem_findGitRepos.mp hr with ⟨parts, _, _, hrc⟩
    exact (hchar r).mp hrc
  · intro parts hp r hmk hd
    exact mem_findGitRepos.mpr ⟨parts, hp, hmk, (hchar r).mpr hd⟩
  · intro r h
    exact (hchar r).mpr ⟨_, h, le_refl _⟩
  · intro r s h
    rw [Bool.eq_false_iff]
    intro hrc
    rcases (hchar r).mp hrc with ⟨d, hd, hle⟩
    rw [h] at hd
    injection hd with hd2
    subst hd2
    have hle2 : since.day ≤ since.day - 1 := hle
    omega

/-- Witness for C4: with `since` at 01:00 of day 100, a repository
whose last commit is midnight of day 100 is kept and one whose last
commit is late on day 99 is dropped. -/
theorem c4_witness :
    hasRecentChanges
      { path := ["r"], name := "r", org := "", last_commit_date := some ⟨100, 0⟩,
        has_changes := false, branch := "main", remote_url := "" }
      ⟨100, 3600⟩ = true ∧
    hasRecentChanges
      { path := ["r"], name := "r", org := "", last_commit_date := some ⟨99, 82800⟩,
        has_changes := false, branch := "main", remote_url := "" }
      ⟨100, 3600⟩ = false := by
  constructor
  · exact (c4_since_filter_boundary noRepoOracle "root" [] true emptyTree
      ⟨100, 3600⟩).2.2.2.1 _ (by decide)
  · exact (c4_since_filter_boundary noRepoOracle "root" [] true emptyTree
      ⟨100, 3600⟩).2.2.2.2 _ 82800 (by decide)

/-! Claim C10. -/

/-- Claim C10: a scanner constructed with `since = None` substitutes a
cutoff seven days before now, so the since filter is always applied
and a repository with no extractable last-commit timestamp never
appears in `find_git_repos` output. -/
theorem c10_no_timestamp_never_included (o : GitOracle) (rootName : String)
    (rootParts : List String) (recursive : Bool) (tree : DirTree)
    (sinceOpt : Option DateTime) (now : DateTime) :
    initSince none now = { day := now.day - 7, sec := now.sec } ∧
    ∀ r ∈ findGitRepos o rootName rootParts recursive tree
        (initSince sinceOpt now),
      r.last_commit_date ≠ none := by
  refine ⟨rfl, ?_⟩
  intro r hr
  rcases mem_findGitRepos.mp hr with ⟨parts, _, _, hrc⟩
  unfold hasRecentChanges at hrc
  rcases h : r.last_commit_date with _ | d
  · rw [h] at hrc
    cases hrc
  · simp [h]

/-- Witness for C10: a concrete scan (default since) returns a
repository, and the theorem applies to it. -/
theorem c10_witness :
    ∀ r ∈ findGitRepos goodOracle "root" ["root"] true singleRepoTree
        (initSince none ⟨105, 0⟩),
      r.last_commit_date ≠ none := by
  intro r hr
  exact (c10_no_timestamp_never_included goodOracle "root" ["root"] true
    singleRepoTree none ⟨105, 0⟩).2 r hr

/-! Claim C3. -/

/-- Field content of a successfully constructed descriptor. -/
theorem make_ok_fields {o : GitOracle} {path : List String}
    {name org : String} {r : GitRepoM}
    (h : GitRepo.make o path name org = .ok r) :
    r.path = path ∧ r.name = name ∧ r.org = org ∧
    r.last_commit_date = o.lastCommit path := by
  unfold GitRepo.make at h
  split at h
  · cases h
  · split at h
    · cases h
    · injection h with h2
      subst h2
      exact ⟨rfl, rfl, rfl, rfl⟩

/-- A root with markers at depths 0, 1 and 2. -/
def depthTree : DirTree :=
  .node "root" [.node ".git" [], .node "r1" [.node ".git" []],
    .node "org1" [.node "r2" [.node ".git" []]]]

/-- The descriptor the depth-2 marker of `depthTree` produces. -/
def repoD2 : GitRepoM :=
  { path := ["root", "org1", "r2"], name := "r2", org := "org1"
    last_commit_date := some ⟨100, 0⟩, has_changes := false
    branch := "main", remote_url := "" }

/-- Claim C3: every emitted descriptor's organization and name follow
the depth rules — a marker at the root or one level below it gets an
empty organization and the marker directory's name; two or more levels
below, the organization is the first segment under root and the name
the final segment. -/
theorem c3_org_name_depth_rules (o : GitOracle) (rootName : String)
    (rootParts : List String) (recursive : Bool) (tree : DirTree)
    (since : DateTime) :
    ∀ r ∈ findGitRepos o rootName rootParts recursive tree since,
      ∃ parts ∈ discovered recursive tree,
        r.path = rootParts ++ parts ∧
        (parts = [] → r.org = "" ∧ r.name = rootName) ∧
        (∀ a, parts = [a] → r.org = "" ∧ r.name = a) ∧
        (2 ≤ parts.length →
          r.org = parts.headD "" ∧ parts.getLast? = some r.name) := by
  intro r hr
  rcases mem_findGitRepos.mp hr with ⟨parts, hp, hmk, _⟩
  refine ⟨parts, hp, ?_⟩
  unfold mkFromParts at hmk
  have hf := make_ok_fields hmk
  refine ⟨hf.1, ?_, ?_, ?_⟩
  · rintro rfl
    exact ⟨hf.2.2.1.trans rfl, hf.2.1.trans rfl⟩
  · rintro a rfl
    exact ⟨hf.2.2.1.trans rfl, hf.2.1.trans rfl⟩
  · intro hlen
    rcases parts with _ | ⟨a, _ | ⟨b, rest⟩⟩
    · simp at hlen
    · simp at hlen
    · refine ⟨hf.2.2.1.trans rfl, ?_⟩
      rw [hf.2.1]
      show (a :: b :: rest).getLast? =
        some (List.getLastD (b :: rest) a)
      rw [List.getLastD_eq_getLast?]
      rw [List.getLast?_cons_cons]
      rcases h2 : (b :: rest).getLast? with _ | x
      · exact absurd h2 (by simp)
      · rfl

/-- Witness for C3: in a tree with markers at depths 0, 1 and 2 the
depth-2 descriptor is emitted with organization `org1` and name
`r2`. -/
theorem c3_witness :
    ∃ parts ∈ discovered true depthTree,
      repoD2.path = ["root"] ++ parts ∧
      (parts = [] → repoD2.org = "" ∧ repoD2.name = "root") ∧
      (∀ a, parts = [a] → repoD2.org = "" ∧ repoD2.name = a) ∧
      (2 ≤ parts.length →
        repoD2.org = parts.headD "" ∧ parts.getLast? = some repoD2.name) := by
  refine c3_org_name_depth_rules goodOracle "root" ["root"] true depthTree
    ⟨90, 0⟩ repoD2 ?_
  simp [findGitRepos, discovered, depthTree, walkAux_node, DirTree.name,
    mkFromParts, GitRepo.make, deriveOrgName, hasRecentChanges, goodOracle,
    repoD2]

/-! Claim C5. -/

/-- A scan result with just a repository identity. -/
def mkScanResult (org name : String) : ScanResultM :=
  { repo :=
      { path := [name], name := name, org := org
        last_commit_date := none, has_changes := false
        branch := "main", remote_url := "" }
    results := [], error := none, changeSummary := none }

/-- The three repositories of the summary-ordering property. -/
def exampleResults : List ScanResultM :=
  [mkScanResult "zeta" "a", mkScanResult "alpha" "b", mkScanResult "" "c"]

/-- Claim C5: the summary rows are the scan results sorted by the pair
of lowercased organization and name; on the repositories
(zeta, a), (alpha, b) and (empty, c), the rendered order is
(empty, c), (alpha, b), (zeta, a). -/
theorem c5_summary_ordering (results : List ScanResultM) :
    (results ≠ [] →
      ∃ rows, generateSummaryReport results = some rows ∧
        List.Sorted summaryLe rows ∧ rows.Perm (summaryRows results)) ∧
    generateSummaryReport exampleResults =
      some [{ org := "", name := "c", hasErrors := false },
        { org := "alpha", name := "b", hasErrors := false },
        { org := "zeta", name := "a", hasErrors := false }] := by
  constructor
  · intro h
    refine ⟨List.insertionSort summaryLe (summaryRows results), ?_, ?_, ?_⟩
    · simp [generateSummaryReport, h]
    · exact List.sorted_insertionSort summaryLe (summaryRows results)
    · exact List.perm_insertionSort summaryLe (summaryRows results)
  · decide

/-- Witness for C5, at the three example repositories. -/
theorem c5_witness :
    ∃ rows, generateSummaryReport exampleResults = some rows ∧
      List.Sorted summaryLe rows ∧ rows.Perm (summaryRows exampleResults) :=
  (c5_summary_ordering exampleResults).1 (List.cons_ne_nil _ _)

/-! Claim C7. -/

/-- Claim C7: when discovery yields no repositories, `scan_all`
returns the empty list before creating anything — no output directory,
no `summary.html`; when it yields some, the output directory is
created and the summary is rendered exactly once. -/
theorem c7_zero_repo_short_circuit (env : ScanEnv) (o : GitOracle)
    (rootName : String) (rootParts : List String) (recursive : Bool)
    (tree : DirTree) (since : DateTime) :
    (findGitRepos o rootName rootParts recursive tree since = [] →
      scanAll env o rootName rootParts recursive tree since = ([], [])) ∧
    (findGitRepos o rootName rootParts recursive tree since ≠ [] →
      ∃ rows, (scanAll env o rootName rootParts recursive tree since).2 =
        [.outputDir, .summary rows]) := by
  constructor
  · intro h
    simp [scanAll, h]
  · intro h
    rcases hrep : findGitRepos o rootName rootParts recursive tree since with
      _ | ⟨r, repos⟩
    · exact absurd hrep h
    · refine ⟨List.insertionSort summaryLe
        (summaryRows ((r :: repos).map (scanRepo env))), ?_⟩
      simp [scanAll, hrep, generateSummaryReport]

/-- Witness for C7: an empty root scans to no results and no
artifacts; a populated root produces the directory and the summary. -/
theorem c7_witness :
    scanAll envTrivial noRepoOracle "root" ["root"] true emptyTree ⟨90, 0⟩ =
      ([], []) ∧
    ∃ rows,
      (scanAll envTrivial goodOracle "root" ["root"] true singleRepoTree
        ⟨90, 0⟩).2 = [.outputDir, .summary rows] := by
  constructor
  · exact (c7_zero_repo_short_circuit envTrivial noRepoOracle "root" ["root"]
      true emptyTree ⟨90, 0⟩).1
      (by simp [findGitRepos, discovered, emptyTree, walkAux_node, DirTree.name])
  · exact (c7_zero_repo_short_circuit envTrivial goodOracle "root" ["root"]
      true singleRepoTree ⟨90, 0⟩).2
      (by simp [findGitRepos, discovered, singleRepoTree, walkAux_node,
        DirTree.name, mkFromParts, GitRepo.make, deriveOrgName,
        hasRecentChanges, goodOracle])

/-! Claim C6. -/

/-- Unlinking a name leaves no symlink entry at it. -/
theorem unlink_linksNamed_self (fs : RepoFS) (n : String) :
    (fs.unlink n).linksNamed n = [] := by
  unfold RepoFS.unlink RepoFS.linksNamed
  simp only [List.filter_filter]
  rw [List.filter_eq_nil_iff]
  intro e he
  by_cases h : e.1 = n <;> simp [h]

/-- Unlinking one name preserves the symlink entries at another. -/
theorem unlink_linksNamed_ne (fs : RepoFS) {m n : String} (h : m ≠ n) :
    (fs.unlink n).linksNamed m = fs.linksNamed m := by
  unfold RepoFS.unlink RepoFS.linksNamed
  simp only [List.filter_filter]
  apply List.filter_congr
  intro e he
  by_cases h2 : e.1 = m <;> simp [h2, h]

/-- Unlinking one name preserves the existence of another file. -/
theorem unlink_fileExists_ne (fs : RepoFS) {m n : String} (h : m ≠ n) :
    (fs.unlink n).fileExists m = fs.fileExists m := by
  unfold RepoFS.unlink RepoFS.fileExists
  simp [List.mem_filter, h]

/-- When no symlink sits at a name, the entry list at it is empty. -/
theorem linksNamed_eq_nil_of_not_hasLink (fs : RepoFS) (n : String)
    (h : fs.hasLink n = false) : fs.linksNamed n = [] := by
  unfold RepoFS.hasLink at h
  unfold RepoFS.linksNamed
  rw [List.filter_eq_nil_iff]
  intro e he
  simp only [decide_eq_true_eq]
  intro h2
  rw [decide_eq_false_iff_not] at h
  exact h ⟨e, he, h2⟩

/-- Writing a file does not touch symlinks. -/
theorem writeFile_links (fs : RepoFS) (n : String) :
    (fs.writeFile n).links = fs.links := by
  unfold RepoFS.writeFile
  split <;> rfl

/-- A written file exists. -/
theorem writeFile_fileExists_self (fs : RepoFS) (n : String) :
    (fs.writeFile n).fileExists n = true := by
  unfold RepoFS.writeFile RepoFS.fileExists
  split <;> simp_all

/-- The pointer update for suffix `s` installs exactly one link at
`latest{s}`, aimed at the fresh target, and keeps the target file. -/
theorem updateLatest_spec (t s : String) (fs : RepoFS)
    (hne : t ++ s ≠ "latest" ++ s)
    (hex : fs.fileExists (t ++ s) = true) :
    (updateLatest t s fs).linksNamed ("latest" ++ s) =
      [("latest" ++ s, t ++ s)] ∧
    (updateLatest t s fs).fileExists (t ++ s) = true := by
  simp only [updateLatest]
  by_cases hcond : (fs.fileExists ("latest" ++ s) ||
      fs.hasLink ("latest" ++ s)) = true
  · rw [if_pos hcond]
    have hex1 : (fs.unlink ("latest" ++ s)).fileExists (t ++ s) = true := by
      rw [unlink_fileExists_ne fs hne]
      exact hex
    rw [if_pos hex1]
    constructor
    · show List.filter (fun l => decide (l.1 = "latest" ++ s))
          (("latest" ++ s, t ++ s) :: (fs.unlink ("latest" ++ s)).links) =
          [("latest" ++ s, t ++ s)]
      rw [List.filter_cons_of_pos (by simp)]
      have h0 := unlink_linksNamed_self fs ("latest" ++ s)
      unfold RepoFS.linksNamed at h0
      rw [h0]
    · exact hex1
  · rw [if_neg hcond]
    rw [if_pos hex]
    constructor
    · show ((fs.links.cons _).filter _) = _
      simp only [List.filter_cons]
      rw [if_pos (by simp)]
      have h1 : fs.hasLink ("latest" ++ s) = false := by
        rcases Bool.or_eq_false_iff.mp (Bool.not_eq_true _ ▸ hcond) with ⟨_, h⟩
        exact h
      have h0 := linksNamed_eq_nil_of_not_hasLink fs ("latest" ++ s) h1
      unfold RepoFS.linksNamed at h0
      rw [h0]
    · exact hex

/-- The pointer update for one suffix leaves the links at any other
name untouched. -/
theorem updateLatest_linksNamed_ne (t s : String) (fs : RepoFS) {n : String}
    (h : n ≠ "latest" ++ s) :
    (updateLatest t s fs).linksNamed n = fs.linksNamed n := by
  simp only [updateLatest]
  by_cases hcond : (fs.fileExists ("latest" ++ s) ||
      fs.hasLink ("latest" ++ s)) = true
  · rw [if_pos hcond]
    by_cases hex : (fs.unlink ("latest" ++ s)).fileExists (t ++ s) = true
    · rw [if_pos hex]
      show (((fs.unlink ("latest" ++ s)).links.cons _).filter _) = _
      simp only [List.filter_cons]
      rw [if_neg (by simp [h.symm])]
      exact unlink_linksNamed_ne fs h
    · rw [if_neg hex]
      exact unlink_linksNamed_ne fs h
  · rw [if_neg hcond]
    by_cases hex : fs.fileExists (t ++ s) = true
    · rw [if_pos hex]
      show ((fs.links.cons _).filter _) = _
      simp only [List.filter_cons]
      rw [if_neg (by simp [h.symm])]
      rfl
    · rw [if_neg hex]

/-- The pointer update for one suffix preserves the existence of any
file not named `latest{s}`. -/
theorem updateLatest_fileExists_ne (t s : String) (fs : RepoFS) {m : String}
    (h : m ≠ "latest" ++ s) :
    (updateLatest t s fs).fileExists m = fs.fileExists m := by
  simp only [updateLatest]
  by_cases hcond : (fs.fileExists ("latest" ++ s) ||
      fs.hasLink ("latest" ++ s)) = true
  · rw [if_pos hcond]
    by_cases hex : (fs.unlink ("latest" ++ s)).fileExists (t ++ s) = true
    · rw [if_pos hex]
      exact unlink_fileExists_ne fs h
    · rw [if_neg hex]
      exact unlink_fileExists_ne fs h
  · rw [if_neg hcond]
    by_cases hex : fs.fileExists (t ++ s) = true
    · rw [if_pos hex]
      rfl
    · rw [if_neg hex]

/-- A timestamped html report name never collides with `latest.md`. -/
theorem append_html_ne_latest_md (t : String) : t ++ ".html" ≠ "latest.md" := by
  intro h
  have h2 : (t ++ ".html").data.getLast? = ("latest.md" : String).data.getLast? := by
    rw [h]
  rw [show (t ++ ".html").data = t.data ++ (".html" : String).data from rfl] at h2
  rw [List.getLast?_append_of_ne_nil _ (by simp)] at h2
  simp at h2

/-- A timestamped html report name never collides with
`latest.llm.md`. -/
theorem append_html_ne_latest_llm (t : String) :
    t ++ ".html" ≠ "latest.llm.md" := by
  intro h
  have h2 : (t ++ ".html").data.getLast? =
      ("latest.llm.md" : String).data.getLast? := by
    rw [h]
  rw [show (t ++ ".html").data = t.data ++ (".html" : String).data from rfl] at h2
  rw [List.getLast?_append_of_ne_nil _ (by simp)] at h2
  simp at h2

/-- A timestamp other than the literal `latest` yields an html report
name distinct from `latest.html`. -/
theorem append_html_ne_latest_html {t : String} (h : t ≠ "latest") :
    t ++ ".html" ≠ "latest.html" := by
  intro he
  apply h
  have hd : t.data ++ (".html" : String).data =
      ("latest" : String).data ++ (".html" : String).data := by
    have h3 : ("latest.html" : String) = "latest" ++ ".html" := rfl
    rw [h3] at he
    exact congrArg String.data he
  have h4 := List.append_cancel_right hd
  cases t with
  | mk d => rw [show ("latest" : String) = ⟨("latest" : String).data⟩ from rfl]
            rw [← h4]

/-- One full report-writing run: exactly one `latest.html` link,
pointing at this run's timestamped report, which exists. -/
theorem writeRepoReport_spec (t : String) (fs : RepoFS) (ht : t ≠ "latest") :
    (writeRepoReport t fs).linksNamed "latest.html" =
      [("latest.html", t ++ ".html")] ∧
    (writeRepoReport t fs).fileExists (t ++ ".html") = true := by
  unfold writeRepoReport
  have hfs1 : (((fs.writeFile (t ++ ".md")).writeFile
      (t ++ ".llm.md")).writeFile (t ++ ".html")).fileExists
      (t ++ ".html") = true := writeFile_fileExists_self _ _
  have hne : t ++ ".html" ≠ "latest" ++ ".html" :=
    fun h => append_html_ne_latest_html ht (h.trans rfl)
  have h1 := updateLatest_spec t ".html" _ hne hfs1
  have h2l : (updateLatest t ".md" (updateLatest t ".html"
      (((fs.writeFile (t ++ ".md")).writeFile (t ++ ".llm.md")).writeFile
        (t ++ ".html")))).linksNamed "latest.html" =
      [("latest.html", t ++ ".html")] := by
    rw [updateLatest_linksNamed_ne t ".md" _ (by decide)]
    exact h1.1
  have h2f : (updateLatest t ".md" (updateLatest t ".html"
      (((fs.writeFile (t ++ ".md")).writeFile (t ++ ".llm.md")).writeFile
        (t ++ ".html")))).fileExists (t ++ ".html") = true := by
    rw [updateLatest_fileExists_ne t ".md" _
      (fun h => append_html_ne_latest_md t (h.trans rfl))]
    exact h1.2
  constructor
  · rw [updateLatest_linksNamed_ne t ".llm.md" _ (by decide)]
    exact h2l
  · rw [updateLatest_fileExists_ne t ".llm.md" _
      (fun h => append_html_ne_latest_llm t (h.trans rfl))]
    exact h2f

/-- Claim C6 states the intent of the code and of the repo's own
integration test (test_scan_integration.py lines 73-75 assert that
`latest.html` exists after a scan), but the code cannot satisfy it:
`_generate_repo_report` raises `TypeError` at the `RepoInfo`
construction on every call, before `generate_html_report` or the
pointer loop can run, so every run returns the output state unchanged
with the exception — two successive runs starting from an empty
directory leave zero `latest.html` pointers instead of exactly one.
(Were the pointer loop reachable, it would behave exactly as the claim
says — that is `writeRepoReport_spec`.) -/
theorem c6_latest_pointer_code_bug :
    (∀ t : String, ∀ fs : RepoFS, generateRepoReport t fs =
      (fs, .error "TypeError: unexpected keyword argument scan_command")) ∧
    (generateRepoReport "20240102_120000"
        (generateRepoReport "20240101_120000" ⟨[], []⟩).1).1.linksNamed
      "latest.html" = [] :=
  ⟨fun _ _ => rfl, rfl⟩

/-! Claim C8. -/

/-- Claim C8 is false on the code: in the default recursive mode the
walk does not prune at marker directories (`dirs[:] = []` runs only
when `recursive` is false), so a repository nested inside another is
emitted as its own scan target — here `root/A/B` inside `root/A`. -/
theorem c8_counterexample :
    (findGitRepos goodOracle "root" ["root"] true nestedTree ⟨90, 0⟩).map
        GitRepoM.path = [["root", "A"], ["root", "A", "B"]] ∧
    (["root", "A"] : List String) <+: ["root", "A", "B"] ∧
    (["root", "A"] : List String) ≠ ["root", "A", "B"] := by
  refine ⟨?_, ⟨["B"], rfl⟩, by decide⟩
  simp [findGitRepos, discovered, nestedTree, walkAux_node, DirTree.name,
    mkFromParts, GitRepo.make, deriveOrgName, hasRecentChanges, goodOracle]

/-- Well-formed directory trees: sibling directory names are distinct
at every level (true of any real filesystem). -/
inductive NodupNames : DirTree → Prop where
  | mk {n : String} {cs : List DirTree} :
      (cs.map DirTree.name).Nodup → (∀ c ∈ cs, NodupNames c) →
      NodupNames (.node n cs)

/-- Every path the walk emits extends the base it was called with. -/
theorem walkAux_base_prefix (recursive : Bool) (t : DirTree) :
    ∀ base p, p ∈ walkAux recursive base t → base <+: p := by
  induction t using DirTree.inductionOn with
  | h n cs ih =>
    intro base p hp
    rw [walkAux_node] at hp
    rcases List.mem_append.mp hp with h | h
    · by_cases hm : cs.any (fun c => c.name == ".git")
      · rw [if_pos hm] at h
        have hb := List.mem_singleton.mp h
        subst hb
        exact List.prefix_refl _
      · rw [if_neg hm] at h
        exact absurd h (List.not_mem_nil p)
    · by_cases hm : (cs.any (fun c => c.name == ".git") && !recursive) = true
      · rw [if_pos hm] at h
        exact absurd h (List.not_mem_nil p)
      · rw [if_neg hm] at h
        rcases List.mem_flatMap.mp h with ⟨c, hc, hpc⟩
        exact (List.prefix_append base [c.name]).trans (ih c hc _ p hpc)

/-- In the non-recursive walk over a well-formed tree, no emitted path
strictly extends another emitted path: the walk prunes at every
marker. -/
theorem walkAux_nonrec_no_nested {t : DirTree} (hwf : NodupNames t) :
    ∀ base p q, p ∈ walkAux false base t → q ∈ walkAux false base t →
      p <+: q → p = q := by
  induction hwf with
  | @mk n cs hnodup hall ih =>
    intro base p q hp hq hpq
    rw [walkAux_node] at hp hq
    simp only [Bool.not_false, Bool.and_true] at hp hq
    by_cases hm : cs.any (fun c => c.name == ".git")
    · rw [if_pos hm, if_pos hm] at hp hq
      have hp2 := List.mem_singleton.mp (by simpa using hp)
      have hq2 := List.mem_singleton.mp (by simpa using hq)
      rw [hp2, hq2]
    · rw [if_neg hm, if_neg hm] at hp hq
      simp only [List.nil_append] at hp hq
      rcases List.mem_flatMap.mp hp with ⟨cp, hcp, hpc⟩
      rcases List.mem_flatMap.mp hq with ⟨cq, hcq, hqc⟩
      have h1 : base ++ [cp.name] <+: p := walkAux_base_prefix false cp _ p hpc
      have h2 : base ++ [cq.name] <+: q := walkAux_base_prefix false cq _ q hqc
      have h3 : base ++ [cp.name] <+: q := h1.trans hpq
      have h4 : base ++ [cp.name] <+: base ++ [cq.name] :=
        List.prefix_of_prefix_length_le h3 h2 (by simp)
      have h5 : base ++ [cp.name] = base ++ [cq.name] :=
        h4.eq_of_length (by simp)
      have h6 : cp.name = cq.name := by
        have h7 := List.append_cancel_left h5
        simpa using h7
      have h8 : cp = cq := List.inj_on_of_nodup_map hnodup hcp hcq h6
      subst h8
      exact ih cp hcp (base ++ [cp.name]) p q hpc hqc hpq

/-- Claim C8 (amended): when the scanner is non-recursive, discovery
stops descending at each marker directory, so over a tree with
distinct sibling names no returned descriptor's path is a strict
descendant of another's — any prefix relation between two returned
paths is equality.  (With `recursive = true`, the default, nested
repositories are emitted separately.) -/
theorem c8_no_nested_when_nonrecursive (o : GitOracle) (rootName : String)
    (rootParts : List String) (tree : DirTree) (since : DateTime)
    (hwf : NodupNames tree) :
    ∀ r1 ∈ findGitRepos o rootName rootParts false tree since,
    ∀ r2 ∈ findGitRepos o rootName rootParts false tree since,
      r1.path <+: r2.path → r1.path = r2.path := by
  intro r1 h1 r2 h2 hpre
  rcases mem_findGitRepos.mp h1 with ⟨p1, hp1, hmk1, _⟩
  rcases mem_findGitRepos.mp h2 with ⟨p2, hp2, hmk2, _⟩
  unfold mkFromParts at hmk1 hmk2
  have hf1 := (make_ok_fields hmk1).1
  have hf2 := (make_ok_fields hmk2).1
  rw [hf1, hf2] at hpre ⊢
  have hp := (List.prefix_append_right_inj rootParts).mp hpre
  rw [walkAux_nonrec_no_nested hwf [] p1 p2 hp1 hp2 hp]

/-- The descriptor the outer repository of `nestedTree` produces. -/
def repoA : GitRepoM :=
  { path := ["root", "A"], name := "A", org := ""
    last_commit_date := some ⟨100, 0⟩, has_changes := false
    branch := "main", remote_url := "" }

/-- Witness for C8 (amended): the nested tree is well-formed, the
non-recursive scan emits only the outer repository, and the theorem
applies to it. -/
theorem c8_witness :
    NodupNames nestedTree ∧
    repoA ∈ findGitRepos goodOracle "root" ["root"] false nestedTree ⟨90, 0⟩ ∧
    repoA.path = repoA.path := by
  have hgit : NodupNames (DirTree.node ".git" []) :=
    ⟨by decide, fun c hc => absurd hc (List.not_mem_nil c)⟩
  have hB : NodupNames (DirTree.node "B" [DirTree.node ".git" []]) := by
    refine ⟨by decide, ?_⟩
    intro c hc
    have hc2 := List.mem_singleton.mp hc
    subst hc2
    exact hgit
  have hA : NodupNames (DirTree.node "A"
      [DirTree.node ".git" [], DirTree.node "B" [DirTree.node ".git" []]]) := by
    refine ⟨by decide, ?_⟩
    intro c hc
    rcases List.mem_cons.mp hc with hc2 | hc2
    · subst hc2
      exact hgit
    · have hc3 := List.mem_singleton.mp hc2
      subst hc3
      exact hB
  have hwf : NodupNames nestedTree := by
    refine ⟨by decide, ?_⟩
    intro c hc
    have hc2 := List.mem_singleton.mp hc
    subst hc2
    exact hA
  have hmem : repoA ∈ findGitRepos goodOracle "root" ["root"] false nestedTree
      ⟨90, 0⟩ := by
    simp [findGitRepos, discovered, nestedTree, walkAux_node, DirTree.name,
      mkFromParts, GitRepo.make, deriveOrgName, hasRecentChanges, goodOracle,
      repoA]
  exact ⟨hwf, hmem,
    c8_no_nested_when_nonrecursive goodOracle "root" ["root"] nestedTree
      ⟨90, 0⟩ hwf repoA hmem repoA hmem (List.prefix_refl _)⟩
